import Mathlib

/-!
Shallow embedding of `src/qualifier/qualifier.py`.

The program has two functions:

* `valid_input(image_size, tile_size, ordering)` — returns `True` iff the
  tile size divides both image dimensions (checked with a bitwise OR of the
  two remainders) and the number of distinct values in `ordering` equals
  `(W // w) * (H // h)` (checked with a bitwise XOR of the two counts).

* `rearrange_tiles(image_path, tile_size, ordering, out_path)` — opens the
  image, raises `ValueError` with a fixed message when `valid_input` fails,
  otherwise enumerates the tile boxes in row-major order, crops the source
  at `tiles[ordering[i]]` and pastes the crop at `tiles[i]` into a fresh
  canvas of the source's mode and size, then saves the canvas with the
  source's original format.

Images are modelled as a size, a colour mode, an optional format tag and a
total pixel function; file I/O is abstracted away: `rearrange_tiles` takes
the decoded source image and returns `Except String SavedImage`, where the
`SavedImage` records the written canvas and the format passed to `save`.
Python list indexing (which accepts negative indices and raises
`IndexError` out of range) is modelled by `pyIdx` returning `Option`;
the generator/`zip` consumption order of the paste loop is modelled by
`pasteSeq`, including the one extra crop that `zip` forces from the
generator when `ordering` is longer than the tile list.
-/

/-- A decoded raster image: dimensions, colour mode, the format it was
decoded from (`none` for an in-memory image, as for `Image.new`), and the
pixel buffer as a total function from coordinates to pixel values. -/
structure Img where
  width : Nat
  height : Nat
  mode : Nat
  format : Option Nat
  pix : Nat → Nat → Nat

/-- An axis-aligned tile rectangle `(x0, y0, x1, y1)`, the 4-tuple the
source builds in its list comprehension. -/
structure Box where
  x0 : Nat
  y0 : Nat
  x1 : Nat
  y1 : Nat
deriving DecidableEq, Repr

instance : Inhabited Box := ⟨⟨0, 0, 0, 0⟩⟩

/-- The file written by `image_out.save(out_path, source_image.format)`:
the canvas pixels plus the format explicitly passed to `save`. -/
structure SavedImage where
  image : Img
  savedFormat : Option Nat

/-- Python list indexing `xs[i]` for `i : Int`: negative indices count from
the end; out-of-range indexing is `none` (an `IndexError`). -/
def pyIdx (xs : List α) (i : Int) : Option α :=
  let j : Int := if i < 0 then (xs.length : Int) + i else i
  if 0 ≤ j then xs.get? j.toNat else none

/-- Embedding of `valid_input` (qualifier.py lines 4-26), keeping the
source's bitwise OR of the remainders and bitwise XOR of the distinct-value
count against `(W // w) * (H // h)`. -/
def valid_input (image_size : Nat × Nat) (tile_size : Nat × Nat)
    (ordering : List Int) : Bool :=
  let image_width := image_size.1
  let image_height := image_size.2
  let width := tile_size.1
  let height := tile_size.2
  if ((image_width % width) ||| (image_height % height)) ≠ 0 then
    false
  else if ((ordering.toFinset.card) ^^^ ((image_width / width) * (image_height / height))) ≠ 0 then
    false
  else
    true

/-- Python `%` on naturals: raises `ZeroDivisionError` when the divisor is
zero, modelled as `none`. -/
def pyMod (a b : Nat) : Option Nat :=
  if b = 0 then none else some (a % b)

/-- Python `//` on naturals: raises `ZeroDivisionError` when the divisor is
zero, modelled as `none`. -/
def pyDiv (a b : Nat) : Option Nat :=
  if b = 0 then none else some (a / b)

/-- Embedding of `valid_input` that keeps Python's partiality: each `%` and
`//` can raise `ZeroDivisionError` (`none`); everything else is total. -/
def valid_inputPy (image_size : Nat × Nat) (tile_size : Nat × Nat)
    (ordering : List Int) : Option Bool := do
  let mw ← pyMod image_size.1 tile_size.1
  let mh ← pyMod image_size.2 tile_size.2
  if (mw ||| mh) ≠ 0 then
    return false
  let dw ← pyDiv image_size.1 tile_size.1
  let dh ← pyDiv image_size.2 tile_size.2
  if ((ordering.toFinset.card) ^^^ (dw * dh)) ≠ 0 then
    return false
  return true

/-- The tile list of `rearrange_tiles` (lines 53-57): a list comprehension
with `y` ranging over the rows on the outside and `x` over the columns on
the inside, so the flat order is row-major with `x` varying fastest. -/
def tileBoxes (imageWidth imageHeight width height : Nat) : List Box :=
  (List.range (imageHeight / height)).flatMap fun y =>
    (List.range (imageWidth / width)).map fun x =>
      ⟨x * width, y * height, (x + 1) * width, (y + 1) * height⟩

/-- The tile box of grid row `r`, column `c` for tile size `w × h`. -/
def boxAt (w h r c : Nat) : Box :=
  ⟨c * w, r * h, (c + 1) * w, (r + 1) * h⟩

/-- `source_image.crop(box)`: a new image of the box's size whose pixel
`(i, j)` reads the source at `(x0 + i, y0 + j)`. -/
def crop (img : Img) (box : Box) : Img :=
  { width := box.x1 - box.x0
    height := box.y1 - box.y0
    mode := img.mode
    format := none
    pix := fun i j => img.pix (box.x0 + i) (box.y0 + j) }

/-- `Image.new(mode, size)`: a fresh canvas of the given mode and size,
filled with the default pixel value. -/
def newImg (mode : Nat) (size : Nat × Nat) : Img :=
  { width := size.1
    height := size.2
    mode := mode
    format := none
    pix := fun _ _ => 0 }

/-- Whether pixel `(x, y)` lies inside the rectangle of `box`. -/
def inRegion (box : Box) (x y : Nat) : Prop :=
  box.x0 ≤ x ∧ x < box.x1 ∧ box.y0 ≤ y ∧ y < box.y1

instance (box : Box) (x y : Nat) : Decidable (inRegion box x y) := by
  unfold inRegion; infer_instance

/-- `canvas.paste(sub, box)` with a 4-tuple box whose size matches `sub`
(the only way the source calls it): pixels inside the box are taken from
`sub`, translated by the box's upper-left corner; the rest is unchanged. -/
def paste (canvas sub : Img) (box : Box) : Img :=
  { canvas with pix := fun x y =>
      if inRegion box x y then sub.pix (x - box.x0) (y - box.y0)
      else canvas.pix x y }

/-- The paste loop `for image, box in zip(images, tiles)` where `images` is
the lazy generator `(source.crop(tiles[i]) for i in ordering)`.  Each step
`zip` first forces one crop (whose indexing may raise `IndexError`, i.e.
`none`), then takes one box; when the boxes run out first, one extra crop
has already been forced and is discarded. -/
def pasteSeq (source : Img) (tiles : List Box) :
    Img → List Int → List Box → Option Img
  | canvas, [], _ => some canvas
  | canvas, i :: _, [] => (pyIdx tiles i).map fun _ => canvas
  | canvas, i :: is, box :: boxes =>
    match pyIdx tiles i with
    | none => none
    | some srcBox =>
      pasteSeq source tiles (paste canvas (crop source srcBox) box) is boxes

/-- Embedding of `rearrange_tiles` (qualifier.py lines 29-64) on the decoded
source image.  Returns the saved file on success, the `ValueError` message
when validation fails, and an `IndexError` marker when `ordering` indexes
outside the tile list. -/
def rearrange_tiles (source : Img) (tile_size : Nat × Nat)
    (ordering : List Int) : Except String SavedImage :=
  let width := tile_size.1
  let height := tile_size.2
  if valid_input (source.width, source.height) tile_size ordering then
    let tiles := tileBoxes source.width source.height width height
    match pasteSeq source tiles (newImg source.mode (source.width, source.height))
        ordering tiles with
    | some canvas => .ok { image := canvas, savedFormat := source.format }
    | none => .error "IndexError"
  else
    .error "The tile size or ordering are not valid for the given image"

/-- The pure paste loop: fold the (crop, box) pairs over the canvas.  Used
to state what `pasteSeq` computes once every index is known to be in
range. -/
def pastePure (canvas : Img) : List (Img × Box) → Img
  | [] => canvas
  | (sub, box) :: rest => pastePure (paste canvas sub box) rest

/-- `ordering` is a true permutation of `[0, n)`: right length, no
duplicates, every value in range. -/
def isPermutation (n : Nat) (ordering : List Int) : Prop :=
  ordering.length = n ∧ ordering.Nodup ∧ ∀ i ∈ ordering, 0 ≤ i ∧ i < (n : Int)

instance (n : Nat) (ordering : List Int) : Decidable (isPermutation n ordering) := by
  unfold isPermutation; infer_instance

/-- The identity ordering `[0, 1, ..., n - 1]`. -/
def identityOrdering (n : Nat) : List Int :=
  (List.range n).map Int.ofNat

/-- A concrete 4 × 2 test image used by the witnesses. -/
def imgA : Img :=
  { width := 4, height := 2, mode := 1, format := some 7
    pix := fun x y => x + 10 * y }

section Helpers

/-- Bitwise OR of naturals is zero exactly when both are zero; this is what
the source's `(W % w) | (H % h)` truthiness test computes. -/
theorem lor_eq_zero_iff (a b : Nat) : (a ||| b) = 0 ↔ a = 0 ∧ b = 0 := by
  constructor
  · intro h
    have key : ∀ i, a.testBit i = false ∧ b.testBit i = false := by
      intro i
      have hc := congrArg (fun n => Nat.testBit n i) h
      simp [Nat.testBit_or] at hc
      exact hc
    constructor
    · apply Nat.eq_of_testBit_eq
      intro i
      simp [(key i).1]
    · apply Nat.eq_of_testBit_eq
      intro i
      simp [(key i).2]
  · rintro ⟨rfl, rfl⟩
    rfl

/-- Characterisation of `valid_input`: the bitwise OR/XOR tests amount to
both remainders being zero and the distinct-value count of `ordering`
matching `(W / w) * (H / h)`. -/
theorem valid_input_iff (W H w h : Nat) (ordering : List Int) :
    valid_input (W, H) (w, h) ordering = true ↔
      W % w = 0 ∧ H % h = 0 ∧ ordering.toFinset.card = (W / w) * (H / h) := by
  unfold valid_input
  dsimp only
  by_cases h1 : ((W % w) ||| (H % h)) = 0
  · rw [if_neg (by simpa using h1)]
    by_cases h2 : (ordering.toFinset.card ^^^ (W / w) * (H / h)) = 0
    · rw [if_neg (by simpa using h2)]
      rw [lor_eq_zero_iff] at h1
      rw [Nat.xor_eq_zero] at h2
      simp [h1.1, h1.2, h2]
    · rw [if_pos h2]
      rw [Nat.xor_eq_zero] at h2
      constructor
      · intro hfalse
        cases hfalse
      · rintro ⟨-, -, hc⟩
        exact absurd hc h2
  · rw [if_pos h1]
    rw [lor_eq_zero_iff] at h1
    constructor
    · intro hfalse
      cases hfalse
    · rintro ⟨ha, hb, -⟩
      exact absurd ⟨ha, hb⟩ h1

end Helpers

/-- C2's failing input, evaluated on the code: `5` is out of range for the
two-tile grid of a 4 × 2 image with 2 × 2 tiles, so `[0, 5]` is not a
permutation of `[0, 2)`, yet `valid_input` accepts it because it only
compares the distinct-value count (2) with the expected tile count (2). -/
theorem C2_code_accepts_out_of_range_ordering :
    valid_input (4, 2) (2, 2) [0, 5] = true := by decide

/-- C4: when the tile dimensions are positive and one of them does not
divide the corresponding image dimension, `valid_input` returns `false`,
whatever `ordering` is. -/
theorem C4_valid_input_rejects_nondividing_tile (W H w h : Nat)
    (ordering : List Int) (hw : 0 < w) (hh : 0 < h)
    (hnd : W % w ≠ 0 ∨ H % h ≠ 0) :
    valid_input (W, H) (w, h) ordering = false := by
  have : ¬ (valid_input (W, H) (w, h) ordering = true) := by
    rw [valid_input_iff]
    rintro ⟨ha, hb, -⟩
    rcases hnd with hnd | hnd
    · exact hnd ha
    · exact hnd hb
  simpa using this

/-- Witness for C4 at the spec's invalid scenario: a 5 × 4 image with
2 × 2 tiles (5 mod 2 ≠ 0). -/
theorem C4_witness :
    (0 < 2 ∧ 0 < 2 ∧ (5 % 2 ≠ 0 ∨ 4 % 2 ≠ 0)) ∧
      valid_input (5, 4) (2, 2) [0, 1, 2, 3] = false :=
  ⟨by decide, C4_valid_input_rejects_nondividing_tile 5 4 2 2 [0, 1, 2, 3]
    (by decide) (by decide) (by decide)⟩

/-- C8: under the precondition that the tile dimensions are positive, the
Python-partial reading of `valid_input` (where `%` and `//` may raise
`ZeroDivisionError`) never raises and agrees with the total function: the
validator is a pure total boolean function of its inputs. -/
theorem C8_valid_input_total_pure (W H w h : Nat) (ordering : List Int)
    (hw : 0 < w) (hh : 0 < h) :
    valid_inputPy (W, H) (w, h) ordering =
      some (valid_input (W, H) (w, h) ordering) := by
  by_cases h1 : ((W % w) ||| (H % h)) = 0 <;>
    by_cases h2 : ((ordering.toFinset.card) ^^^ (W / w) * (H / h)) = 0 <;>
      simp [valid_inputPy, valid_input, pyMod, pyDiv, hw.ne', hh.ne', h1, h2,
        Nat.xor_eq_zero.mp, ← Nat.xor_eq_zero]

/-- Witness for C8 on a 4 × 2 image with 2 × 2 tiles. -/
theorem C8_witness :
    (0 < 2 ∧ 0 < 2) ∧
      valid_inputPy (4, 2) (2, 2) [0, 1] =
        some (valid_input (4, 2) (2, 2) [0, 1]) :=
  ⟨by decide, C8_valid_input_total_pure 4 2 2 2 [0, 1] (by decide) (by decide)⟩

/-- C10: the verdict of `valid_input` depends on `ordering` only through
its set of distinct values — two orderings with the same value set get the
same verdict regardless of length, order or duplicates. -/
theorem C10_valid_input_value_set_only (image_size tile_size : Nat × Nat)
    (o1 o2 : List Int) (hset : o1.toFinset = o2.toFinset) :
    valid_input image_size tile_size o1 = valid_input image_size tile_size o2 := by
  unfold valid_input
  rw [hset]

/-- Witness for C10: `[0, 1, 1]` and `[1, 0]` have the same value set, so
`valid_input` treats them identically. -/
theorem C10_witness :
    ([0, 1, 1] : List Int).toFinset = ([1, 0] : List Int).toFinset ∧
      valid_input (4, 2) (2, 2) [0, 1, 1] = valid_input (4, 2) (2, 2) [1, 0] :=
  ⟨by decide, C10_valid_input_value_set_only (4, 2) (2, 2) [0, 1, 1] [1, 0] (by decide)⟩

section TileLemmas

/-- Flattening the row-major double loop of the tile comprehension into a
single indexed range: element `i` has row `i / m` and column `i % m`. -/
theorem range_flatMap_range_map {α : Type} (f : Nat → Nat → α) :
    ∀ n m : Nat, (List.range n).flatMap (fun y => (List.range m).map (f y)) =
      (List.range (n * m)).map fun i => f (i / m) (i % m) := by
  intro n m
  induction n with
  | zero => simp
  | succ n ih =>
    rw [List.range_succ, List.flatMap_append, ih, Nat.succ_mul, List.range_add,
      List.map_append, List.map_map]
    congr 1
    · simp only [List.flatMap_cons, List.flatMap_nil, List.append_nil]
      apply List.map_congr_left
      intro j hj
      have hjm : j < m := List.mem_range.mp hj
      have hm : 0 < m := Nat.pos_of_ne_zero (by omega)
      simp only [Function.comp]
      rw [Nat.add_comm (n * m) j, Nat.mul_comm n m]
      rw [Nat.add_mul_div_left j n hm, Nat.add_mul_mod_self_left]
      rw [Nat.div_eq_of_lt hjm, Nat.mod_eq_of_lt hjm, Nat.zero_add]

/-- The source's tile list equals the indexed row-major enumeration. -/
theorem tileBoxes_eq_map (W H w h : Nat) :
    tileBoxes W H w h =
      (List.range ((H / h) * (W / w))).map
        fun i => boxAt w h (i / (W / w)) (i % (W / w)) := by
  unfold tileBoxes boxAt
  exact range_flatMap_range_map _ _ _

/-- Length of the tile list: one box per grid cell. -/
theorem tileBoxes_length (W H w h : Nat) :
    (tileBoxes W H w h).length = (H / h) * (W / w) := by
  rw [tileBoxes_eq_map]
  simp

/-- Row-major flat index arithmetic: the row of `r * cols + c`. -/
theorem rowcol_div (r c cols : Nat) (hc : c < cols) : (r * cols + c) / cols = r := by
  rw [Nat.add_comm, Nat.mul_comm, Nat.add_mul_div_left c r (Nat.pos_of_ne_zero (by omega)),
    Nat.div_eq_of_lt hc, Nat.zero_add]

/-- Row-major flat index arithmetic: the column of `r * cols + c`. -/
theorem rowcol_mod (r c cols : Nat) (hc : c < cols) : (r * cols + c) % cols = c := by
  rw [Nat.add_comm, Nat.mul_comm, Nat.add_mul_mod_self_left, Nat.mod_eq_of_lt hc]

/-- Row-major flat indexes stay below `rows * cols`. -/
theorem rowcol_lt (r c rows cols : Nat) (hr : r < rows) (hc : c < cols) :
    r * cols + c < rows * cols := by
  have h1 : r * cols + c < (r + 1) * cols := by
    rw [Nat.succ_mul]
    omega
  have h2 : (r + 1) * cols ≤ rows * cols := Nat.mul_le_mul_right cols hr
  omega

/-- Indexing the tile list at a row-major flat index. -/
theorem tileBoxes_get? (W H w h r c : Nat) (hr : r < H / h) (hc : c < W / w) :
    (tileBoxes W H w h).get? (r * (W / w) + c) =
      some ⟨c * w, r * h, (c + 1) * w, (r + 1) * h⟩ := by
  rw [tileBoxes_eq_map]
  have hlt : r * (W / w) + c < (H / h) * (W / w) := rowcol_lt r c _ _ hr hc
  rw [List.get?_eq_get (by simpa using hlt)]
  simp only [List.get_eq_getElem, List.getElem_map, List.getElem_range]
  rw [rowcol_div r c _ hc, rowcol_mod r c _ hc]
  rfl

end TileLemmas

/-- C5: the tile boxes are enumerated in row-major order with the column
varying fastest — the box at flat index `r * cols + c` is
`(c*w, r*h, (c+1)*w, (r+1)*h)` — and the enumeration has exactly
`rows * cols` entries; `rearrange_tiles` indexes `ordering` into precisely
this list. -/
theorem C5_row_major_enumeration (W H w h r c : Nat)
    (hr : r < H / h) (hc : c < W / w) :
    (tileBoxes W H w h).get? (r * (W / w) + c) =
      some ⟨c * w, r * h, (c + 1) * w, (r + 1) * h⟩ ∧
    (tileBoxes W H w h).length = (H / h) * (W / w) :=
  ⟨tileBoxes_get? W H w h r c hr hc, tileBoxes_length W H w h⟩

/-- Witness for C5 on the spec's 4 × 4 scenario with 2 × 2 tiles: the box
of row 1, column 0 is the third entry `(0, 2, 2, 4)`. -/
theorem C5_witness :
    (1 < 4 / 2 ∧ 0 < 4 / 2) ∧
      ((tileBoxes 4 4 2 2).get? (1 * (4 / 2) + 0) = some ⟨0, 2, 2, 4⟩ ∧
        (tileBoxes 4 4 2 2).length = (4 / 2) * (4 / 2)) :=
  ⟨by decide, C5_row_major_enumeration 4 4 2 2 1 0 (by decide) (by decide)⟩

section PasteLemmas

/-- A point `a * w + dx` with `dx < w` lies in `[b * w, (b + 1) * w)` only
for `b = a`: tile intervals along one axis are disjoint. -/
theorem interval_unique (w a b dx : Nat) (hdx : dx < w)
    (h1 : b * w ≤ a * w + dx) (h2 : a * w + dx < (b + 1) * w) : b = a := by
  rw [Nat.succ_mul] at h2
  rcases Nat.lt_trichotomy a b with hab | hab | hab
  · exfalso
    have hle : (a + 1) * w ≤ b * w := Nat.mul_le_mul_right w hab
    rw [Nat.succ_mul] at hle
    omega
  · omega
  · exfalso
    have hle : (b + 1) * w ≤ a * w := Nat.mul_le_mul_right w hab
    rw [Nat.succ_mul] at hle
    omega

/-- Membership of an in-tile point in a grid box determines the box. -/
theorem inRegion_boxAt_iff (w h r c rp cp dx dy : Nat)
    (hdx : dx < w) (hdy : dy < h) :
    inRegion (boxAt w h rp cp) (c * w + dx) (r * h + dy) ↔ rp = r ∧ cp = c := by
  unfold inRegion boxAt
  dsimp only
  constructor
  · rintro ⟨hx0, hx1, hy0, hy1⟩
    exact ⟨interval_unique h r rp dy hdy hy0 hy1,
      interval_unique w c cp dx hdx hx0 hx1⟩
  · rintro ⟨rfl, rfl⟩
    refine ⟨Nat.le_add_right _ _, ?_, Nat.le_add_right _ _, ?_⟩
    · rw [Nat.succ_mul]
      omega
    · rw [Nat.succ_mul]
      omega

/-- Pasting does not change pixels outside the target box. -/
theorem paste_pix_of_notin (canvas sub : Img) (box : Box) (x y : Nat)
    (hx : ¬ inRegion box x y) :
    (paste canvas sub box).pix x y = canvas.pix x y := by
  unfold paste
  exact if_neg hx

/-- Pasting writes the sub-image's pixels inside the target box. -/
theorem paste_pix_of_in (canvas sub : Img) (box : Box) (x y : Nat)
    (hx : inRegion box x y) :
    (paste canvas sub box).pix x y = sub.pix (x - box.x0) (y - box.y0) := by
  unfold paste
  exact if_pos hx

/-- Pasting only rewrites the pixel buffer; the canvas metadata stays. -/
theorem pastePure_meta (L : List (Img × Box)) :
    ∀ canvas : Img, (pastePure canvas L).width = canvas.width ∧
      (pastePure canvas L).height = canvas.height ∧
      (pastePure canvas L).mode = canvas.mode := by
  induction L with
  | nil => intro canvas; exact ⟨rfl, rfl, rfl⟩
  | cons p rest ih =>
    intro canvas
    obtain ⟨sub, box⟩ := p
    exact ih (paste canvas sub box)

/-- A pixel outside every pasted box keeps its original canvas value. -/
theorem pastePure_pix_of_none (L : List (Img × Box)) :
    ∀ (canvas : Img) (x y : Nat), (∀ p ∈ L, ¬ inRegion p.2 x y) →
      (pastePure canvas L).pix x y = canvas.pix x y := by
  induction L with
  | nil => intro canvas x y _; rfl
  | cons p rest ih =>
    intro canvas x y hnone
    obtain ⟨sub, box⟩ := p
    have hrest := ih (paste canvas sub box) x y
      (fun q hq => hnone q (List.mem_cons_of_mem _ hq))
    rw [pastePure, hrest,
      paste_pix_of_notin canvas sub box x y (hnone ⟨sub, box⟩ (List.mem_cons_self _ _))]

/-- The value of a pixel after the paste loop: if the pixel lies in the box
of entry `j` and in no later entry's box, it carries entry `j`'s sub-image
pixel (later pastes never overwrite it). -/
theorem pastePure_pix_of_hit (L : List (Img × Box)) :
    ∀ (canvas : Img) (x y j : Nat) (hj : j < L.length),
      inRegion (L.get ⟨j, hj⟩).2 x y →
      (∀ k (hk : k < L.length), j < k → ¬ inRegion (L.get ⟨k, hk⟩).2 x y) →
      (pastePure canvas L).pix x y =
        (L.get ⟨j, hj⟩).1.pix (x - (L.get ⟨j, hj⟩).2.x0) (y - (L.get ⟨j, hj⟩).2.y0) := by
  induction L with
  | nil =>
    intro canvas x y j hj
    exact absurd hj (by simp)
  | cons p rest ih =>
    intro canvas x y j hj hmem hafter
    obtain ⟨sub, box⟩ := p
    cases j with
    | zero =>
      have hnone : ∀ q ∈ rest, ¬ inRegion q.2 x y := by
        intro q hq
        obtain ⟨⟨n, hn⟩, hget⟩ := List.mem_iff_get.mp hq
        have := hafter (n + 1) (by simpa using Nat.succ_lt_succ hn) (Nat.succ_pos n)
        rw [← hget]
        simpa using this
      rw [pastePure, pastePure_pix_of_none rest _ x y hnone]
      exact paste_pix_of_in canvas sub box x y hmem
    | succ j =>
      rw [pastePure]
      exact ih (paste canvas sub box) x y j (Nat.lt_of_succ_lt_succ hj) hmem
        (fun k hk hjk => hafter (k + 1) (Nat.succ_lt_succ hk) (Nat.succ_lt_succ hjk))

/-- Nonnegative in-range Python indexing is plain list indexing. -/
theorem pyIdx_eq_get (xs : List Box) (i : Int) (h0 : 0 ≤ i)
    (hlt : i.toNat < xs.length) :
    pyIdx xs i = some (xs.get ⟨i.toNat, hlt⟩) := by
  unfold pyIdx
  dsimp only
  rw [if_neg (not_lt.mpr h0), if_pos h0]
  exact List.get?_eq_get hlt

/-- When every index taken from the generator is in range, the interleaved
generator/`zip` loop succeeds and computes the pure paste fold of the
cropped sub-images against the target boxes. -/
theorem pasteSeq_eq_pastePure (source : Img) (tiles : List Box) :
    ∀ (is : List Int) (bs : List Box) (canvas : Img),
      (∀ i ∈ is, (pyIdx tiles i).isSome) →
      pasteSeq source tiles canvas is bs =
        some (pastePure canvas
          ((is.map fun i => crop source ((pyIdx tiles i).getD default)).zip bs)) := by
  intro is
  induction is with
  | nil =>
    intro bs canvas _
    simp [pasteSeq, pastePure]
  | cons i is ih =>
    intro bs canvas hsome
    have hi : (pyIdx tiles i).isSome := hsome i (List.mem_cons_self _ _)
    obtain ⟨srcBox, hsrc⟩ := Option.isSome_iff_exists.mp hi
    cases bs with
    | nil =>
      rw [pasteSeq, hsrc]
      simp [pastePure]
    | cons b bs =>
      simp only [pasteSeq, hsrc]
      rw [ih bs (paste canvas (crop source srcBox) b)
        (fun i hi => hsome i (List.mem_cons_of_mem _ hi))]
      simp [pastePure, hsrc, List.zip]

end PasteLemmas


/-- Indexing the tile list at any in-range flat index. -/
theorem tileBoxes_get?_flat (W H w h k : Nat) (hk : k < (H / h) * (W / w)) :
    (tileBoxes W H w h).get? k =
      some (boxAt w h (k / (W / w)) (k % (W / w))) := by
  rw [tileBoxes_eq_map, List.get?_eq_get (by simpa using hk)]
  simp

/-- An entry of a zipped list from `get?` facts about the two halves. -/
theorem zip_get_eq {α β : Type} (A : List α) (B : List β) (k : Nat)
    (hk : k < (A.zip B).length) (a : α) (b : β)
    (ha : A.get? k = some a) (hb : B.get? k = some b) :
    (A.zip B).get ⟨k, hk⟩ = (a, b) := by
  have hbounds : k < A.length ∧ k < B.length := by
    rw [List.length_zip] at hk
    omega
  have ha' : A.get ⟨k, hbounds.1⟩ = a := by
    rw [List.get?_eq_get hbounds.1] at ha
    exact Option.some.inj ha
  have hb' : B.get ⟨k, hbounds.2⟩ = b := by
    rw [List.get?_eq_get hbounds.2] at hb
    exact Option.some.inj hb
  simp only [List.get_eq_getElem, List.getElem_zip]
  simp only [List.get_eq_getElem] at ha' hb'
  rw [ha', hb']

/-- Master analysis of a successful `rearrange_tiles` run under a true
permutation: the run returns a saved file whose metadata matches the
source, and the pixel at offset `(dx, dy)` of output box `(r, c)` is the
corresponding pixel of the source box indexed by the ordering entry at
flat position `r * cols + c`. -/
theorem rearrange_tiles_ok (source : Img) (w h : Nat) (ordering : List Int)
    (hw : 0 < w) (hh : 0 < h) (hW : w ∣ source.width) (hH : h ∣ source.height)
    (hperm : isPermutation ((source.width / w) * (source.height / h)) ordering) :
    ∃ out, rearrange_tiles source (w, h) ordering = Except.ok out ∧
      out.savedFormat = source.format ∧
      out.image.mode = source.mode ∧
      out.image.width = source.width ∧
      out.image.height = source.height ∧
      ∀ r c dx dy : Nat, r < source.height / h → c < source.width / w →
        dx < w → dy < h → ∀ σ : Int,
        ordering.get? (r * (source.width / w) + c) = some σ →
        out.image.pix (c * w + dx) (r * h + dy) =
          source.pix ((σ.toNat % (source.width / w)) * w + dx)
            ((σ.toNat / (source.width / w)) * h + dy) := by
  obtain ⟨hlen, hnodup, hrange⟩ := hperm
  set tiles := tileBoxes source.width source.height w h with htiles_def
  have hvalid : valid_input (source.width, source.height) (w, h) ordering = true := by
    rw [valid_input_iff]
    refine ⟨Nat.mod_eq_zero_of_dvd hW, Nat.mod_eq_zero_of_dvd hH, ?_⟩
    rw [List.toFinset_card_of_nodup hnodup, hlen]
  have htlen : tiles.length = (source.height / h) * (source.width / w) :=
    tileBoxes_length _ _ _ _
  have htoNat_lt : ∀ i ∈ ordering, i.toNat < tiles.length := by
    intro i hi
    obtain ⟨h0, hlt⟩ := hrange i hi
    rw [htlen, Nat.mul_comm]
    omega
  have hsome : ∀ i ∈ ordering, (pyIdx tiles i).isSome := by
    intro i hi
    rw [pyIdx_eq_get _ i (hrange i hi).1 (htoNat_lt i hi)]
    rfl
  have hrun := pasteSeq_eq_pastePure source tiles ordering tiles
    (newImg source.mode (source.width, source.height)) hsome
  refine ⟨⟨pastePure (newImg source.mode (source.width, source.height))
      ((ordering.map fun i => crop source ((pyIdx tiles i).getD default)).zip tiles),
      source.format⟩,
    ?_, rfl, (pastePure_meta _ _).2.2, (pastePure_meta _ _).1,
    (pastePure_meta _ _).2.1, ?_⟩
  · unfold rearrange_tiles
    dsimp only
    rw [← htiles_def, if_pos hvalid, hrun]
  · intro r c dx dy hr hc hdx hdy σ hσ
    set pairs := (ordering.map fun i => crop source ((pyIdx tiles i).getD default)).zip tiles
      with hpairs_def
    have hσmem : σ ∈ ordering := List.get?_mem hσ
    obtain ⟨hσ0, hσlt⟩ := hrange σ hσmem
    have hσtl := htoNat_lt σ hσmem
    have hi_lt : r * (source.width / w) + c <
        (source.height / h) * (source.width / w) := rowcol_lt r c _ _ hr hc
    have hzlen : pairs.length = (source.height / h) * (source.width / w) := by
      rw [hpairs_def, List.length_zip, List.length_map, hlen, htlen,
        Nat.mul_comm (source.width / w) (source.height / h)]
      exact Nat.min_self _
    have hj : r * (source.width / w) + c < pairs.length := by
      rw [hzlen]
      exact hi_lt
    have hpair : ∀ (k : Nat) (hk : k < pairs.length) (σk : Int),
        ordering.get? k = some σk →
        pairs.get ⟨k, hk⟩ =
          (crop source ((pyIdx tiles σk).getD default),
            boxAt w h (k / (source.width / w)) (k % (source.width / w))) := by
      intro k hk σk hσk
      apply zip_get_eq
      · rw [List.get?_map, hσk]
        rfl
      · apply tileBoxes_get?_flat
        rw [← hzlen]
        exact hk
    have hhit_pair := hpair _ hj σ hσ
    have hmem : inRegion (boxAt w h r c) (c * w + dx) (r * h + dy) :=
      (inRegion_boxAt_iff w h r c r c dx dy hdx hdy).mpr ⟨rfl, rfl⟩
    have hhit := pastePure_pix_of_hit pairs
      (newImg source.mode (source.width, source.height))
      (c * w + dx) (r * h + dy) (r * (source.width / w) + c) hj
      (by
        rw [hhit_pair]
        dsimp only
        rw [rowcol_div r c _ hc, rowcol_mod r c _ hc]
        exact hmem)
      (by
        intro k hk hik hreg
        rcases hok : ordering.get? k with _ | σk
        · have hko : k < ordering.length := by
            rw [hlen, Nat.mul_comm (source.width / w) (source.height / h), ← hzlen]
            exact hk
          rw [List.get?_eq_get hko] at hok
          cases hok
        · rw [hpair k hk σk hok] at hreg
          dsimp only at hreg
          obtain ⟨hkr, hkc⟩ := (inRegion_boxAt_iff w h r c _ _ dx dy hdx hdy).mp hreg
          have hksplit := Nat.div_add_mod k (source.width / w)
          rw [hkr, hkc, Nat.mul_comm (source.width / w) r] at hksplit
          omega)
    refine hhit.trans ?_
    rw [hhit_pair]
    dsimp only
    rw [rowcol_div r c _ hc, rowcol_mod r c _ hc]
    rw [pyIdx_eq_get tiles σ hσ0 hσtl]
    have htget : tiles.get ⟨σ.toNat, hσtl⟩ =
        boxAt w h (σ.toNat / (source.width / w)) (σ.toNat % (source.width / w)) := by
      have h1 := List.get?_eq_get hσtl
      have h2 : tiles.get? σ.toNat =
          some (boxAt w h (σ.toNat / (source.width / w))
            (σ.toNat % (source.width / w))) :=
        tileBoxes_get?_flat source.width source.height w h σ.toNat
          (by rw [← htlen]; exact hσtl)
      exact Option.some.inj (h1.symm.trans h2)
    rw [Option.getD_some, htget]
    unfold crop boxAt
    dsimp only
    rw [Nat.add_sub_cancel_left, Nat.add_sub_cancel_left]

/-- C1: for a valid input — positive tile dimensions dividing the image
dimensions and an ordering that is a true permutation of the tile index
range — `rearrange_tiles` succeeds and the pixel at offset `(dx, dy)` of
output box `i` equals the pixel at the same offset of source box
`ordering[i]`: the i-th pasted tile is cropped from `boxes[ordering[i]]`
and pasted at `boxes[i]`. -/
theorem C1_tile_content_from_ordering (source : Img) (w h : Nat)
    (ordering : List Int)
    (hw : 0 < w) (hh : 0 < h) (hW : w ∣ source.width) (hH : h ∣ source.height)
    (hperm : isPermutation ((source.width / w) * (source.height / h)) ordering)
    (i : Nat) (hi : i < (source.width / w) * (source.height / h))
    (σ : Int) (hσ : ordering.get? i = some σ)
    (dx dy : Nat) (hdx : dx < w) (hdy : dy < h) :
    ∃ out, rearrange_tiles source (w, h) ordering = Except.ok out ∧
      out.image.pix ((i % (source.width / w)) * w + dx)
          ((i / (source.width / w)) * h + dy) =
        source.pix ((σ.toNat % (source.width / w)) * w + dx)
          ((σ.toNat / (source.width / w)) * h + dy) := by
  obtain ⟨out, hok, -, -, -, -, hpix⟩ :=
    rearrange_tiles_ok source w h ordering hw hh hW hH hperm
  refine ⟨out, hok, ?_⟩
  have hcols : 0 < source.width / w := by
    rcases Nat.eq_zero_or_pos (source.width / w) with h0 | h0
    · rw [h0] at hi
      simp at hi
    · exact h0
  have hc : i % (source.width / w) < source.width / w := Nat.mod_lt _ hcols
  have hr : i / (source.width / w) < source.height / h := by
    rw [Nat.div_lt_iff_lt_mul hcols, Nat.mul_comm]
    exact hi
  apply hpix _ _ _ _ hr hc hdx hdy σ
  rw [Nat.div_add_mod' i (source.width / w)]
  exact hσ

/-- Witness for C1 on the spec's horizontal-swap scenario: a 4 × 2 image,
2 × 2 tiles, ordering `[1, 0]`; output box 0 offset `(1, 1)` shows source
box 1's pixel. -/
theorem C1_witness :
    (0 < 2 ∧ (2 : Nat) ∣ 4 ∧ (2 : Nat) ∣ 2 ∧
      isPermutation ((4 / 2) * (2 / 2)) [1, 0] ∧
      0 < (4 / 2) * (2 / 2) ∧ ([1, 0] : List Int).get? 0 = some 1 ∧ 1 < 2) ∧
    ∃ out, rearrange_tiles imgA (2, 2) [1, 0] = Except.ok out ∧
      out.image.pix ((0 % (4 / 2)) * 2 + 1) ((0 / (4 / 2)) * 2 + 1) =
        imgA.pix (((1 : Int).toNat % (4 / 2)) * 2 + 1)
          (((1 : Int).toNat / (4 / 2)) * 2 + 1) :=
  ⟨by decide, C1_tile_content_from_ordering imgA 2 2 [1, 0] (by decide) (by decide)
    (by decide) (by decide) (by decide) 0 (by decide) 1 (by decide) 1 1
    (by decide) (by decide)⟩

/-- The identity ordering is a true permutation. -/
theorem identity_isPermutation (n : Nat) : isPermutation n (identityOrdering n) := by
  unfold identityOrdering isPermutation
  refine ⟨?_, ?_, ?_⟩
  · rw [List.length_map, List.length_range]
  · refine List.Nodup.map ?_ (List.nodup_range n)
    intro a b hab
    exact Int.ofNat.inj hab
  · intro i hi
    rw [List.mem_map] at hi
    obtain ⟨k, hk, rfl⟩ := hi
    rw [List.mem_range] at hk
    rw [Int.ofNat_eq_natCast]
    refine ⟨by omega, by omega⟩

/-- Entries of the identity ordering. -/
theorem identityOrdering_get? (n k : Nat) (hk : k < n) :
    (identityOrdering n).get? k = some (k : Int) := by
  unfold identityOrdering
  have hk2 : k < ((List.range n).map Int.ofNat).length := by
    rw [List.length_map, List.length_range]
    exact hk
  rw [List.get?_eq_get hk2]
  congr 1
  simp only [List.get_eq_getElem, List.getElem_map, List.getElem_range]
  rfl

/-- C6: with the identity permutation as ordering, `rearrange_tiles`
produces an output pixel-identical to the source image over its whole
domain (and of the same size). -/
theorem C6_identity_ordering_is_noop (source : Img) (w h : Nat)
    (hw : 0 < w) (hh : 0 < h) (hW : w ∣ source.width) (hH : h ∣ source.height) :
    ∃ out, rearrange_tiles source (w, h)
        (identityOrdering ((source.width / w) * (source.height / h))) =
          Except.ok out ∧
      out.image.width = source.width ∧ out.image.height = source.height ∧
      ∀ x y : Nat, x < source.width → y < source.height →
        out.image.pix x y = source.pix x y := by
  obtain ⟨out, hok, -, -, hwid, hhei, hpix⟩ :=
    rearrange_tiles_ok source w h
      (identityOrdering ((source.width / w) * (source.height / h)))
      hw hh hW hH (identity_isPermutation _)
  refine ⟨out, hok, hwid, hhei, ?_⟩
  intro x y hx hy
  have hc : x / w < source.width / w := by
    rw [Nat.div_lt_iff_lt_mul hw, Nat.div_mul_cancel hW]
    exact hx
  have hr : y / h < source.height / h := by
    rw [Nat.div_lt_iff_lt_mul hh, Nat.div_mul_cancel hH]
    exact hy
  have hiN : (y / h) * (source.width / w) + x / w <
      (source.width / w) * (source.height / h) := by
    rw [Nat.mul_comm (source.width / w) (source.height / h)]
    exact rowcol_lt _ _ _ _ hr hc
  have hget := identityOrdering_get? ((source.width / w) * (source.height / h))
    ((y / h) * (source.width / w) + x / w) hiN
  have hmain := hpix (y / h) (x / w) (x % w) (y % h) hr hc
    (Nat.mod_lt _ hw) (Nat.mod_lt _ hh) _ hget
  rw [Int.toNat_natCast, rowcol_div _ _ _ hc, rowcol_mod _ _ _ hc,
    Nat.div_add_mod' x w, Nat.div_add_mod' y h] at hmain
  exact hmain

/-- Witness for C6 on the 4 × 2 test image with 2 × 2 tiles. -/
theorem C6_witness :
    (0 < 2 ∧ (2 : Nat) ∣ 4 ∧ (2 : Nat) ∣ 2) ∧
    ∃ out, rearrange_tiles imgA (2, 2)
        (identityOrdering ((4 / 2) * (2 / 2))) = Except.ok out ∧
      out.image.width = 4 ∧ out.image.height = 2 ∧
      ∀ x y : Nat, x < 4 → y < 2 → out.image.pix x y = imgA.pix x y :=
  ⟨by decide, C6_identity_ordering_is_noop imgA 2 2 (by decide) (by decide)
    (by decide) (by decide)⟩

/-- C7: applying a valid permutation `P` and then an inverse permutation
`Q` (any true permutation with `P[Q[k]] = k` on the tile index range)
restores the original image pixel-for-pixel. -/
theorem C7_round_trip (source : Img) (w h : Nat) (P Q : List Int)
    (hw : 0 < w) (hh : 0 < h) (hW : w ∣ source.width) (hH : h ∣ source.height)
    (hP : isPermutation ((source.width / w) * (source.height / h)) P)
    (hQ : isPermutation ((source.width / w) * (source.height / h)) Q)
    (hinv : ∀ k : Nat, k < (source.width / w) * (source.height / h) →
      ∀ q : Int, Q.get? k = some q → P.get? q.toNat = some (k : Int)) :
    ∃ out1 out2, rearrange_tiles source (w, h) P = Except.ok out1 ∧
      rearrange_tiles out1.image (w, h) Q = Except.ok out2 ∧
      ∀ x y : Nat, x < source.width → y < source.height →
        out2.image.pix x y = source.pix x y := by
  obtain ⟨out1, hok1, -, -, hw1, hh1, hpix1⟩ :=
    rearrange_tiles_ok source w h P hw hh hW hH hP
  have hW2 : w ∣ out1.image.width := by
    rw [hw1]
    exact hW
  have hH2 : h ∣ out1.image.height := by
    rw [hh1]
    exact hH
  have hQ2 : isPermutation ((out1.image.width / w) * (out1.image.height / h)) Q := by
    rw [hw1, hh1]
    exact hQ
  obtain ⟨out2, hok2, -, -, -, -, hpix2⟩ :=
    rearrange_tiles_ok out1.image w h Q hw hh hW2 hH2 hQ2
  rw [hw1, hh1] at hpix2
  refine ⟨out1, out2, hok1, hok2, ?_⟩
  intro x y hx hy
  have hc : x / w < source.width / w := by
    rw [Nat.div_lt_iff_lt_mul hw, Nat.div_mul_cancel hW]
    exact hx
  have hr : y / h < source.height / h := by
    rw [Nat.div_lt_iff_lt_mul hh, Nat.div_mul_cancel hH]
    exact hy
  have hcols : 0 < source.width / w :=
    Nat.lt_of_le_of_lt (Nat.zero_le (x / w)) hc
  have hkN : (y / h) * (source.width / w) + x / w <
      (source.width / w) * (source.height / h) := by
    rw [Nat.mul_comm (source.width / w) (source.height / h)]
    exact rowcol_lt _ _ _ _ hr hc
  obtain ⟨hQlen, -, hQrange⟩ := hQ
  have hkQ : (y / h) * (source.width / w) + x / w < Q.length := by
    rw [hQlen]
    exact hkN
  obtain ⟨q, hq⟩ : ∃ q, Q.get? ((y / h) * (source.width / w) + x / w) = some q :=
    ⟨_, List.get?_eq_get hkQ⟩
  obtain ⟨hq0, hqlt⟩ := hQrange q (List.get?_mem hq)
  have hqN : q.toNat < (source.width / w) * (source.height / h) := by omega
  have hstep2 := hpix2 (y / h) (x / w) (x % w) (y % h) hr hc
    (Nat.mod_lt _ hw) (Nat.mod_lt _ hh) q hq
  rw [Nat.div_add_mod' x w, Nat.div_add_mod' y h] at hstep2
  have hqr : q.toNat / (source.width / w) < source.height / h := by
    rw [Nat.div_lt_iff_lt_mul hcols,
      Nat.mul_comm (source.height / h) (source.width / w)]
    exact hqN
  have hqc : q.toNat % (source.width / w) < source.width / w := Nat.mod_lt _ hcols
  have hp := hinv ((y / h) * (source.width / w) + x / w) hkN q hq
  have hstep1 := hpix1 (q.toNat / (source.width / w)) (q.toNat % (source.width / w))
    (x % w) (y % h) hqr hqc (Nat.mod_lt _ hw) (Nat.mod_lt _ hh)
    ((((y / h) * (source.width / w) + x / w : Nat)) : Int)
    (by
      rw [Nat.div_add_mod' q.toNat (source.width / w)]
      exact hp)
  rw [Int.toNat_natCast, rowcol_div _ _ _ hc, rowcol_mod _ _ _ hc,
    Nat.div_add_mod' x w, Nat.div_add_mod' y h] at hstep1
  rw [hstep2, hstep1]

/-- Witness for C7: swapping the two tiles of the 4 × 2 test image twice
restores it. -/
theorem C7_witness :
    (0 < 2 ∧ (2 : Nat) ∣ 4 ∧ (2 : Nat) ∣ 2 ∧
      isPermutation ((4 / 2) * (2 / 2)) [1, 0] ∧
      (∀ k : Nat, k < (4 / 2) * (2 / 2) → ∀ q : Int,
        ([1, 0] : List Int).get? k = some q →
          ([1, 0] : List Int).get? q.toNat = some (k : Int))) ∧
    ∃ out1 out2, rearrange_tiles imgA (2, 2) [1, 0] = Except.ok out1 ∧
      rearrange_tiles out1.image (2, 2) [1, 0] = Except.ok out2 ∧
      ∀ x y : Nat, x < 4 → y < 2 → out2.image.pix x y = imgA.pix x y := by
  have hinv : ∀ k : Nat, k < (4 / 2) * (2 / 2) → ∀ q : Int,
      ([1, 0] : List Int).get? k = some q →
        ([1, 0] : List Int).get? q.toNat = some (k : Int) := by
    intro k hk q hq
    have hk2 : k = 0 ∨ k = 1 := by omega
    rcases hk2 with rfl | rfl
    · simp at hq
      subst hq
      decide
    · simp at hq
      subst hq
      decide
  exact ⟨⟨by decide, by decide, by decide, by decide, hinv⟩,
    C7_round_trip imgA 2 2 [1, 0] [1, 0] (by decide) (by decide) (by decide)
      (by decide) (by decide) (by decide) hinv⟩

/-- The interleaved paste loop only rewrites pixels: on success the result
keeps the canvas's width, height and mode. -/
theorem pasteSeq_meta (source : Img) (tiles : List Box) :
    ∀ (is : List Int) (bs : List Box) (canvas out : Img),
      pasteSeq source tiles canvas is bs = some out →
      out.width = canvas.width ∧ out.height = canvas.height ∧
        out.mode = canvas.mode := by
  intro is
  induction is with
  | nil =>
    intro bs canvas out hps
    rw [pasteSeq] at hps
    obtain rfl := Option.some.inj hps
    exact ⟨rfl, rfl, rfl⟩
  | cons i is ih =>
    intro bs canvas out hps
    cases bs with
    | nil =>
      rw [pasteSeq] at hps
      rcases hpy : pyIdx tiles i with _ | b
      · rw [hpy] at hps
        cases hps
      · rw [hpy] at hps
        obtain rfl := Option.some.inj hps
        exact ⟨rfl, rfl, rfl⟩
    | cons b bs =>
      rw [pasteSeq] at hps
      rcases hpy : pyIdx tiles i with _ | srcBox
      · rw [hpy] at hps
        cases hps
      · rw [hpy] at hps
        exact ih bs (paste canvas (crop source srcBox) b) out hps

/-- C3: with positive tile dimensions, `rearrange_tiles` fails with exactly
the message "The tile size or ordering are not valid for the given image"
if and only if `valid_input` rejects the decoded image size, tile size and
ordering; and on that failure path no output is produced (the result is an
error, never a saved image). -/
theorem C3_validation_error_iff (source : Img) (w h : Nat) (ordering : List Int)
    (hw : 0 < w) (hh : 0 < h) :
    (rearrange_tiles source (w, h) ordering =
        Except.error "The tile size or ordering are not valid for the given image" ↔
      valid_input (source.width, source.height) (w, h) ordering = false) ∧
    (valid_input (source.width, source.height) (w, h) ordering = false →
      ∀ out, rearrange_tiles source (w, h) ordering ≠ Except.ok out) := by
  unfold rearrange_tiles
  dsimp only
  by_cases hv : valid_input (source.width, source.height) (w, h) ordering = true
  · rw [if_pos hv]
    constructor
    · constructor
      · intro habs
        rcases hps : pasteSeq source (tileBoxes source.width source.height w h)
            (newImg source.mode (source.width, source.height)) ordering
            (tileBoxes source.width source.height w h) with _ | canvas
        · rw [hps] at habs
          dsimp only at habs
          exact absurd (Except.error.inj habs) (by decide)
        · rw [hps] at habs
          dsimp only at habs
          cases habs
      · intro hfalse
        rw [hv] at hfalse
        cases hfalse
    · intro hfalse
      rw [hv] at hfalse
      cases hfalse
  · rw [if_neg hv]
    have hv' : valid_input (source.width, source.height) (w, h) ordering = false :=
      Bool.eq_false_iff.mpr (fun habs => hv habs)
    refine ⟨⟨fun _ => hv', fun _ => rfl⟩, fun _ out habs => ?_⟩
    cases habs

/-- Witness for C3 on a rejected ordering: the 4 × 2 image with 2 × 2
tiles expects two tiles, and `[0, 1, 2]` has three distinct values, so
`valid_input` rejects it and `rearrange_tiles` fails with the fixed
message. -/
theorem C3_witness :
    (0 < 2 ∧ 0 < 2) ∧
    ((rearrange_tiles imgA (2, 2) [0, 1, 2] =
        Except.error "The tile size or ordering are not valid for the given image" ↔
      valid_input (imgA.width, imgA.height) (2, 2) [0, 1, 2] = false) ∧
    (valid_input (imgA.width, imgA.height) (2, 2) [0, 1, 2] = false →
      ∀ out, rearrange_tiles imgA (2, 2) [0, 1, 2] ≠ Except.ok out)) :=
  ⟨by decide, C3_validation_error_iff imgA 2 2 [0, 1, 2] (by decide) (by decide)⟩

/-- C9: every successful run of `rearrange_tiles` returns an image with
the source's colour mode and overall size, saved with the source's
original format. -/
theorem C9_success_preserves_metadata (source : Img) (tile_size : Nat × Nat)
    (ordering : List Int) (out : SavedImage)
    (hok : rearrange_tiles source tile_size ordering = Except.ok out) :
    out.image.mode = source.mode ∧ out.image.width = source.width ∧
      out.image.height = source.height ∧ out.savedFormat = source.format := by
  unfold rearrange_tiles at hok
  dsimp only at hok
  by_cases hv : valid_input (source.width, source.height) tile_size ordering = true
  · rw [if_pos hv] at hok
    rcases hps : pasteSeq source
        (tileBoxes source.width source.height tile_size.1 tile_size.2)
        (newImg source.mode (source.width, source.height)) ordering
        (tileBoxes source.width source.height tile_size.1 tile_size.2)
      with _ | canvas
    · rw [hps] at hok
      dsimp only at hok
      cases hok
    · rw [hps] at hok
      dsimp only at hok
      obtain rfl := Except.ok.inj hok
      obtain ⟨h1, h2, h3⟩ := pasteSeq_meta source _ ordering _ _ canvas hps
      exact ⟨h3, h1, h2, rfl⟩
  · rw [if_neg hv] at hok
    cases hok

/-- Witness for C9: the swap run on the 4 × 2 test image succeeds, and its
output carries the source's mode, size and format. -/
theorem C9_witness :
    ∃ out, rearrange_tiles imgA (2, 2) [1, 0] = Except.ok out ∧
      (out.image.mode = imgA.mode ∧ out.image.width = imgA.width ∧
        out.image.height = imgA.height ∧ out.savedFormat = imgA.format) := by
  obtain ⟨out, hok, -⟩ := rearrange_tiles_ok imgA 2 2 [1, 0] (by decide) (by decide)
    (by decide) (by decide) (by decide)
  exact ⟨out, hok, C9_success_preserves_metadata imgA (2, 2) [1, 0] out hok⟩
